import Mathlib

/-!
Shallow embedding of `vigenere.py` (a Vigenère cipher encrypt/decrypt/crack
tool) together with proofs about the claims of its specification.

Text is modelled as `List Char`.  Python's `str.upper` is modelled per
character by `Char.toUpper`, which agrees with Python on all ASCII input
(the multi-character Unicode expansions such as ß → SS are not modelled;
every concrete input used below is ASCII).  Machine integers are `ℕ`/`ℤ`
(Python integers are unbounded).  Fallible Python code — operations that
can raise `ZeroDivisionError`, `IndexError` or `ValueError` — is modelled
with `Except PyErr`.
-/

/-- Python exceptions relevant to `vigenere.py`, plus the two error values the
specification postulates (`EmptyKeyError`, `InsufficientSignalError`).  The
latter two are NOT defined anywhere in the source; they appear here only so
that statements about them can be written, and no definition ever produces
them. -/
inductive PyErr where
  | zeroDivisionError
  | indexError
  | valueError
  | emptyKeyError
  | insufficientSignalError
  deriving DecidableEq, Repr

deriving instance DecidableEq for Except

/-- `ALPHABET = string.ascii_uppercase` (line 39). -/
def ALPHABET : List Char :=
  ['A', 'B', 'C', 'D', 'E', 'F', 'G', 'H', 'I', 'J', 'K', 'L', 'M',
   'N', 'O', 'P', 'Q', 'R', 'S', 'T', 'U', 'V', 'W', 'X', 'Y', 'Z']

/-- `MIN_NGRAM = 3` (line 42). -/
def MIN_NGRAM : ℕ := 3

/-- `MAX_NGRAM = 16` (line 43). -/
def MAX_NGRAM : ℕ := 16

/-- `MOST_COMMON_LETTER = "E"` (line 46), as its single character. -/
def MOST_COMMON_LETTER : Char := 'E'

/-- The 52 ASCII letters (upper- and lower-case); used to phrase hypotheses
about keys consisting only of ASCII letters. -/
def asciiLetters : List Char :=
  ['A', 'B', 'C', 'D', 'E', 'F', 'G', 'H', 'I', 'J', 'K', 'L', 'M',
   'N', 'O', 'P', 'Q', 'R', 'S', 'T', 'U', 'V', 'W', 'X', 'Y', 'Z',
   'a', 'b', 'c', 'd', 'e', 'f', 'g', 'h', 'i', 'j', 'k', 'l', 'm',
   'n', 'o', 'p', 'q', 'r', 's', 't', 'u', 'v', 'w', 'x', 'y', 'z']

/-- `normalize_text` (lines 71-72): upper-case the text and keep only the
characters of `ALPHABET`. -/
def normalize_text (text : List Char) : List Char :=
  (text.map Char.toUpper).filter (fun c => ALPHABET.contains c)

/-- Python `str.index` restricted to our use: position of the first occurrence
of `c` in `l`.  Python raises `ValueError` when `c` is absent; at every call
site in the source the character searched for has been normalized into
`ALPHABET` first, so the absent case (where this returns `l.length`) is
unreachable. -/
def pyIndex (l : List Char) (c : Char) : ℕ :=
  match l with
  | [] => 0
  | x :: rest => if x = c then 0 else pyIndex rest c + 1

/-- The loop of `encrypt` (lines 81-82):
`cypher += ALPHABET[(ALPHABET.index(plain[i]) + key_offsets[i % len(key)]) % len(ALPHABET)]`.
`rawLen` is `len(key)` — the length of the RAW key argument, while `offs` is
built from the NORMALIZED key; `i % len(key)` raises `ZeroDivisionError` when
the raw key is empty, and the subscript raises `IndexError` when
`i % len(key)` falls outside `key_offsets`. -/
def encLoop (offs : List ℕ) (rawLen : ℕ) : ℕ → List Char → Except PyErr (List Char)
  | _, [] => Except.ok []
  | i, c :: rest =>
    if rawLen = 0 then Except.error PyErr.zeroDivisionError
    else if h : i % rawLen < offs.length then
      match encLoop offs rawLen (i + 1) rest with
      | Except.error e => Except.error e
      | Except.ok tail =>
        Except.ok (ALPHABET.getD
          ((pyIndex ALPHABET c + offs.get ⟨i % rawLen, h⟩) % ALPHABET.length) 'A' :: tail)
    else Except.error PyErr.indexError

/-- The loop of `decrypt` (lines 93-94); identical to `encLoop` except that the
key offset is subtracted, with Python's nonnegative `%` modelled by `%` on
`ℤ` (`Int.emod`; both give a result in `[0, 26)` for modulus `26`). -/
def decLoop (offs : List ℕ) (rawLen : ℕ) : ℕ → List Char → Except PyErr (List Char)
  | _, [] => Except.ok []
  | i, c :: rest =>
    if rawLen = 0 then Except.error PyErr.zeroDivisionError
    else if h : i % rawLen < offs.length then
      match decLoop offs rawLen (i + 1) rest with
      | Except.error e => Except.error e
      | Except.ok tail =>
        Except.ok (ALPHABET.getD
          ((((pyIndex ALPHABET c : ℤ) - (offs.get ⟨i % rawLen, h⟩ : ℤ)) %
            (ALPHABET.length : ℤ)).toNat) 'A' :: tail)
    else Except.error PyErr.indexError

/-- `encrypt` (lines 75-84). -/
def encryptE (plain key : List Char) : Except PyErr (List Char) :=
  encLoop ((normalize_text key).map (pyIndex ALPHABET)) key.length 0 (normalize_text plain)

/-- `decrypt` (lines 87-96). -/
def decryptE (cypher key : List Char) : Except PyErr (List Char) :=
  decLoop ((normalize_text key).map (pyIndex ALPHABET)) key.length 0 (normalize_text cypher)

/-- Insertion-ordered map from ngram to its list of recorded positions,
modelling the Python dict `multiples`. -/
abbrev MultMap : Type := List (List Char × List ℕ)

/-- `multiples[ngram].append(pos)` preceded by `multiples.setdefault(ngram, [])`
(lines 115-120): append `pos` to the entry of `key`, creating the entry at the
end (dict insertion order) when absent. -/
def alistAppendPos (m : MultMap) (key : List Char) (pos : ℕ) : MultMap :=
  match m with
  | [] => [(key, [pos])]
  | (k, ps) :: rest =>
    if k = key then (k, ps ++ [pos]) :: rest else (k, ps) :: alistAppendPos rest key pos

/-- Python slice `l[a:b]` for `0 ≤ a ≤ b`. -/
def pySlice (l : List Char) (a b : ℕ) : List Char :=
  (l.drop a).take (b - a)

/-- Inner loop body of `find_multiples` (lines 108-120): for one end index `i`,
record every ngram of length `n ∈ [MIN_NGRAM, MAX_NGRAM]` with `n ≤ i+1`
ending at `i`, under start position `i - n + 1` (written `i + 1 - n`, which is
equal under the guard `n ≤ i + 1` and stays correct for truncating natural
subtraction). -/
def addNgrams (cy : List Char) (m : MultMap) (i : ℕ) : MultMap :=
  (List.range' MIN_NGRAM (MAX_NGRAM - MIN_NGRAM + 1)).foldl
    (fun m n =>
      if i + 1 < n then m
      else alistAppendPos m (pySlice cy (i + 1 - n) (i + 1)) (i + 1 - n)) m

/-- `find_multiples` (lines 101-122): scan all end indices, then keep only the
ngrams recorded at more than one position. -/
def find_multiples (cy : List Char) : MultMap :=
  ((List.range cy.length).foldl (addNgrams cy) []).filter (fun e => 1 < e.2.length)

/-- The distances contributed by one position list (lines 129-132):
`for i in range(2, len(positions)): distances.extend(positions[i]-j for j in positions[:i])`.
Note the range starts at `2`, not `1`. -/
def pairDistances (positions : List ℕ) : List ℕ :=
  (List.range' 2 (positions.length - 2)).foldl
    (fun acc i => acc ++ (positions.take i).map (fun j => positions.getD i 0 - j)) []

/-- `calc_distances` (lines 125-134). -/
def calc_distances (m : MultMap) : List ℕ :=
  m.foldl (fun acc e => acc ++ pairDistances e.2) []

/-- The inner `while n % d == 0` loop of `prime_factors` (lines 58-60), with a
structural fuel (any `fuel ≥ n` is enough).  Returns the number of times `d`
was divided out together with the remaining cofactor.  Python performs the
division with `/=` on floats; that is exact for all magnitudes reachable here
(distances are below 2^53), so it is modelled with exact natural division. -/
def stripF : ℕ → ℕ → ℕ → ℕ × ℕ
  | 0, n, _ => (0, n)
  | fuel + 1, n, d =>
    if 2 ≤ d ∧ 0 < n ∧ n % d = 0 then
      ((stripF fuel (n / d) d).1 + 1, (stripF fuel (n / d) d).2)
    else (0, n)

/-- The outer `while n > 1` loop of `prime_factors` (lines 57-65), with a
structural fuel (any `fuel ≥ n - d + 1` is enough): divide out `d`, increment
`d`, and stop — appending the remaining cofactor if it exceeds 1 — as soon as
`d*d > n`. -/
def pfLoopF : ℕ → ℕ → ℕ → List ℕ
  | 0, _, _ => []
  | fuel + 1, n, d =>
    if n ≤ 1 then []
    else
      List.replicate (stripF n n d).1 d ++
        (if (stripF n n d).2 < (d + 1) * (d + 1) then
          (if 1 < (stripF n n d).2 then [(stripF n n d).2] else [])
        else pfLoopF fuel (stripF n n d).2 (d + 1))

/-- `prime_factors` (lines 53-66). -/
def prime_factors (n : ℕ) : List ℕ :=
  pfLoopF n n 2

/-- Insert into a sorted list, keeping order. -/
def insertSorted (x : ℕ) : List ℕ → List ℕ
  | [] => [x]
  | y :: rest => if x ≤ y then x :: y :: rest else y :: insertSorted x rest

/-- Python `sorted` on a list of naturals (insertion sort; same sorted value). -/
def pySorted (l : List ℕ) : List ℕ :=
  l.foldr insertSorted []

/-- The divisor products contributed by a single distance (lines 156-168):
from the sorted prime factor list `divs`, take every sub-multiset of size
`r ∈ [1, len(divs) - 1]` once (the `old` set deduplicates the sorted tuples
that `itertools.permutations` produces repeatedly) and multiply it out.
Sub-multisets of the sorted factor list are exactly its deduplicated
sublists; the enumeration order inside a single distance differs from
Python's permutation order, but the resulting multiset of products — hence
the frequency table — is identical. -/
def distanceDivisorProducts (n : ℕ) : List ℕ :=
  ((pySorted (prime_factors n)).sublists.filter
      (fun s => decide (0 < s.length) &&
        decide (s.length < (pySorted (prime_factors n)).length))).dedup.map List.prod

/-- `div_freqs[prod] += 1` with `div_freqs.setdefault(prod, 0)` (lines 166-168)
on an insertion-ordered association list. -/
def bumpFreq : List (ℕ × ℕ) → ℕ → List (ℕ × ℕ)
  | [], p => [(p, 1)]
  | (k, f) :: rest, p =>
    if k = p then (k, f + 1) :: rest else (k, f) :: bumpFreq rest p

/-- `find_common_divisors` (lines 137-170).  The Python `factor_cache` only
avoids recomputing factorizations and does not change the result; it is not
modelled. -/
def find_common_divisors (distances : List ℕ) : List (ℕ × ℕ) :=
  distances.foldl (fun acc dist => (distanceDivisorProducts dist).foldl bumpFreq acc) []

/-- Python `max(dict, key=f)` over an insertion-ordered table: the first key
whose `key`-value is maximal (a later element replaces the current maximum
only when strictly greater). -/
def pyMaxBy {α : Type} [LinearOrder α] (key : ℕ → α) (l : List (ℕ × ℕ)) : Option ℕ :=
  (l.foldl
    (fun acc e =>
      match acc with
      | none => some e
      | some a => if key a.2 < key e.2 then some e else some a) none).map Prod.fst

/-- The score of line 195-196 for a divisor of frequency `freq`:
`freq * (50*math.log(0.1*freq+0.8)*(10/freq))`, with Python floats modelled as
exact reals. -/
noncomputable def scoreR (freq : ℕ) : ℝ :=
  (freq : ℝ) * (50 * Real.log (0.1 * (freq : ℝ) + 0.8) * (10 / (freq : ℝ)))

/-- `collections.Counter(sub)` as an insertion-ordered association list of
character counts (first-encounter order, as in Python). -/
def countChar : List (Char × ℕ) → Char → List (Char × ℕ)
  | [], c => [(c, 1)]
  | (k, n) :: rest, c =>
    if k = c then (k, n + 1) :: rest else (k, n) :: countChar rest c

/-- Build the counter for a list of characters. -/
def counterOf (l : List Char) : List (Char × ℕ) :=
  l.foldl countChar []

/-- Maximum count appearing in a counter. -/
def maxCount (l : List (Char × ℕ)) : ℕ :=
  l.foldl (fun m e => Nat.max m e.2) 0

/-- Stable sort of a counter by descending count (fuel = list length):
repeatedly move the first entry holding the maximal count to the front.  This
is the documented behaviour of `Counter.most_common` (equivalent to
`sorted(..., key=count, reverse=True)`, a stable sort). -/
def stableSortDesc : ℕ → List (Char × ℕ) → List (Char × ℕ)
  | 0, _ => []
  | fuel + 1, l =>
    match l.find? (fun e => e.2 == maxCount l) with
    | none => []
    | some e => e :: stableSortDesc fuel (l.eraseP (fun x => x.2 == maxCount l))

/-- Every `step`-th element of a list, starting with its head (fuel = length). -/
def everyNthF : ℕ → ℕ → List Char → List Char
  | 0, _, _ => []
  | _ + 1, _, [] => []
  | fuel + 1, step, c :: rest => c :: everyNthF fuel step (rest.drop (step - 1))

/-- Python slice `l[start::step]` for `step ≥ 1`. -/
def stepSlice (l : List Char) (start step : ℕ) : List Char :=
  everyNthF l.length step (l.drop start)

/-- One iteration of the key-recovery loop of `crack` (lines 226-241) for
column `i`: take `most_common = Counter(cypher[i::L]).most_common(2)` and the
most common character `most_common[0][0]`.  At `verbosity >= 2` the
diagnostic line 234 reads `most_common[1][1]` unguarded, so with fewer than
two distinct characters in the column it raises `IndexError`; at any
verbosity an empty column makes `most_common[0]` raise `IndexError`. -/
def columnChar (cy : List Char) (L v i : ℕ) : Except PyErr Char :=
  match (stableSortDesc (counterOf (stepSlice cy i L)).length
      (counterOf (stepSlice cy i L))).take 2 with
  | [] => Except.error PyErr.indexError
  | e0 :: [] => if 2 ≤ v then Except.error PyErr.indexError else Except.ok e0.1
  | e0 :: _ :: _ => Except.ok e0.1

/-- The `raw_key` accumulation of lines 225-241. -/
def buildRawKey (cy : List Char) (L v : ℕ) : Except PyErr (List Char) :=
  (List.range L).foldl
    (fun acc i =>
      match acc with
      | Except.error e => Except.error e
      | Except.ok s =>
        match columnChar cy L v i with
        | Except.error e => Except.error e
        | Except.ok ch => Except.ok (s ++ [ch])) (Except.ok [])

/-- The divisor frequency table `crack` builds from a normalized ciphertext
(lines 180-190). -/
def divTableOf (cy : List Char) : List (ℕ × ℕ) :=
  find_common_divisors (calc_distances (find_multiples cy))

/-- `crack` (lines 173-250).  `top_div = max(div_freqs, key=lambda k: scores[k])`
raises `ValueError` on an empty table (modelled by `pyMaxBy` returning `none`);
the subsequent `confidence = div_freqs[top_div]/dist_len` would raise
`ZeroDivisionError` if no distance existed (unreachable once a divisor
exists).  The source maximizes the score `scores[k] = scoreR freq`; since the
score is strictly increasing in the frequency alone
(`pyMaxBy_scoreR_eq_freq` below), the selection is performed here by raw
frequency, which keeps the definition computable.  Verbosity only controls
diagnostics, except that it decides whether the unguarded `most_common[1]`
read of line 234 is executed. -/
def crackE (cypher : List Char) (verbosity : ℕ) : Except PyErr (List Char × List Char) :=
  match pyMaxBy (fun f => f) (divTableOf (normalize_text cypher)) with
  | none => Except.error PyErr.valueError
  | some top_div =>
    if (calc_distances (find_multiples (normalize_text cypher))).length = 0 then
      Except.error PyErr.zeroDivisionError
    else
      match buildRawKey (normalize_text cypher) top_div verbosity with
      | Except.error e => Except.error e
      | Except.ok raw_key =>
        match decryptE raw_key (List.replicate top_div MOST_COMMON_LETTER) with
        | Except.error e => Except.error e
        | Except.ok key =>
          match decryptE (normalize_text cypher) key with
          | Except.error e => Except.error e
          | Except.ok plain => Except.ok (plain, key)

/-! ### Basic facts about the alphabet and `normalize_text` -/

theorem alphabet_len : ALPHABET.length = 26 := rfl

theorem contains_alphabet_iff (c : Char) : ALPHABET.contains c = true ↔ c ∈ ALPHABET :=
  List.elem_iff

theorem toUpper_fix_alphabet : ∀ c ∈ ALPHABET, c.toUpper = c := by decide

theorem contains_toUpper_of_letter : ∀ c ∈ asciiLetters, ALPHABET.contains c.toUpper = true := by
  decide

theorem pyIndex_lt_alphabet : ∀ c ∈ ALPHABET, pyIndex ALPHABET c < 26 := by decide

theorem pyIndex_getD_alphabet : ∀ j < 26, pyIndex ALPHABET (ALPHABET.getD j 'A') = j := by decide

theorem getD_pyIndex_alphabet : ∀ c ∈ ALPHABET, ALPHABET.getD (pyIndex ALPHABET c) 'A' = c := by
  decide

theorem getD_mem_alphabet : ∀ j < 26, ALPHABET.getD j 'A' ∈ ALPHABET := by decide

theorem normalize_mem (l : List Char) : ∀ c ∈ normalize_text l, c ∈ ALPHABET := by
  intro c hc
  have := List.mem_filter.mp hc
  exact (contains_alphabet_iff c).mp this.2

theorem normalize_eq_self (l : List Char) (h : ∀ c ∈ l, c ∈ ALPHABET) :
    normalize_text l = l := by
  induction l with
  | nil => rfl
  | cons c rest ih =>
    have hc : c ∈ ALPHABET := h c (List.mem_cons_self c rest)
    have hrest := ih (fun x hx => h x (List.mem_cons_of_mem c hx))
    simp only [normalize_text, List.map_cons, List.filter_cons] at hrest ⊢
    rw [toUpper_fix_alphabet c hc]
    rw [if_pos ((contains_alphabet_iff c).mpr hc)]
    exact congrArg (c :: ·) hrest

theorem normalize_of_letters (k : List Char) (h : ∀ c ∈ k, c ∈ asciiLetters) :
    normalize_text k = k.map Char.toUpper := by
  refine List.filter_eq_self.mpr ?_
  intro a ha
  obtain ⟨c, hc, rfl⟩ := List.mem_map.mp ha
  exact contains_toUpper_of_letter c (h c hc)

theorem normalize_length_of_letters (k : List Char) (h : ∀ c ∈ k, c ∈ asciiLetters) :
    (normalize_text k).length = k.length := by
  rw [normalize_of_letters k h, List.length_map]

/-! ### Pure descriptions of the encrypt/decrypt loops -/

/-- The value computed by `encLoop` when no exception occurs. -/
def encPure (offs : List ℕ) (rawLen : ℕ) : ℕ → List Char → List Char
  | _, [] => []
  | i, c :: rest =>
    ALPHABET.getD ((pyIndex ALPHABET c + offs.getD (i % rawLen) 0) % ALPHABET.length) 'A' ::
      encPure offs rawLen (i + 1) rest

/-- The value computed by `decLoop` when no exception occurs. -/
def decPure (offs : List ℕ) (rawLen : ℕ) : ℕ → List Char → List Char
  | _, [] => []
  | i, c :: rest =>
    ALPHABET.getD ((((pyIndex ALPHABET c : ℤ) - (offs.getD (i % rawLen) 0 : ℤ)) %
      (ALPHABET.length : ℤ)).toNat) 'A' ::
      decPure offs rawLen (i + 1) rest

theorem encLoop_ok (offs : List ℕ) (rawLen : ℕ) (h0 : rawLen ≠ 0)
    (hlen : offs.length = rawLen) (p : List Char) :
    ∀ i : ℕ, encLoop offs rawLen i p = Except.ok (encPure offs rawLen i p) := by
  induction p with
  | nil => intro i; rfl
  | cons c rest ih =>
    intro i
    have hb : i % rawLen < offs.length := by
      rw [hlen]; exact Nat.mod_lt _ (Nat.pos_of_ne_zero h0)
    rw [encLoop, if_neg h0, dif_pos hb, ih (i + 1)]
    rw [encPure, List.getD_eq_get offs 0 hb]

theorem decLoop_ok (offs : List ℕ) (rawLen : ℕ) (h0 : rawLen ≠ 0)
    (hlen : offs.length = rawLen) (p : List Char) :
    ∀ i : ℕ, decLoop offs rawLen i p = Except.ok (decPure offs rawLen i p) := by
  induction p with
  | nil => intro i; rfl
  | cons c rest ih =>
    intro i
    have hb : i % rawLen < offs.length := by
      rw [hlen]; exact Nat.mod_lt _ (Nat.pos_of_ne_zero h0)
    rw [decLoop, if_neg h0, dif_pos hb, ih (i + 1)]
    rw [decPure, List.getD_eq_get offs 0 hb]

theorem encPure_length (offs : List ℕ) (rawLen : ℕ) (p : List Char) :
    ∀ i : ℕ, (encPure offs rawLen i p).length = p.length := by
  induction p with
  | nil => intro i; rfl
  | cons c rest ih => intro i; rw [encPure, List.length_cons, List.length_cons, ih (i + 1)]

theorem decPure_length (offs : List ℕ) (rawLen : ℕ) (p : List Char) :
    ∀ i : ℕ, (decPure offs rawLen i p).length = p.length := by
  induction p with
  | nil => intro i; rfl
  | cons c rest ih => intro i; rw [decPure, List.length_cons, List.length_cons, ih (i + 1)]

theorem encPure_mem (offs : List ℕ) (rawLen : ℕ) (p : List Char) :
    ∀ i : ℕ, ∀ c ∈ encPure offs rawLen i p, c ∈ ALPHABET := by
  induction p with
  | nil => intro i c hc; cases hc
  | cons c rest ih =>
    intro i x hx
    rw [encPure] at hx
    rcases List.mem_cons.mp hx with h | h
    · rw [h]
      exact getD_mem_alphabet _ (Nat.mod_lt _ (by decide))
    · exact ih (i + 1) x h

theorem decPure_mem (offs : List ℕ) (rawLen : ℕ) (p : List Char) :
    ∀ i : ℕ, ∀ c ∈ decPure offs rawLen i p, c ∈ ALPHABET := by
  induction p with
  | nil => intro i c hc; cases hc
  | cons c rest ih =>
    intro i x hx
    rw [decPure] at hx
    rcases List.mem_cons.mp hx with h | h
    · rw [h]
      refine getD_mem_alphabet _ ?_
      rw [alphabet_len]
      omega
    · exact ih (i + 1) x h

theorem encPure_getD (offs : List ℕ) (rawLen : ℕ) (p : List Char) :
    ∀ i j : ℕ, j < p.length →
      (encPure offs rawLen i p).getD j 'A' =
        ALPHABET.getD ((pyIndex ALPHABET (p.getD j 'A') +
          offs.getD ((i + j) % rawLen) 0) % ALPHABET.length) 'A' := by
  induction p with
  | nil => intro i j hj; cases hj
  | cons c rest ih =>
    intro i j hj
    match j with
    | 0 => rfl
    | j' + 1 =>
      rw [encPure]
      have : i + (j' + 1) = (i + 1) + j' := by omega
      rw [this]
      exact ih (i + 1) j' (by simpa using hj)

theorem decPure_getD (offs : List ℕ) (rawLen : ℕ) (p : List Char) :
    ∀ i j : ℕ, j < p.length →
      (decPure offs rawLen i p).getD j 'A' =
        ALPHABET.getD ((((pyIndex ALPHABET (p.getD j 'A') : ℤ) -
          (offs.getD ((i + j) % rawLen) 0 : ℤ)) % (ALPHABET.length : ℤ)).toNat) 'A' := by
  induction p with
  | nil => intro i j hj; cases hj
  | cons c rest ih =>
    intro i j hj
    match j with
    | 0 => rfl
    | j' + 1 =>
      rw [decPure]
      have : i + (j' + 1) = (i + 1) + j' := by omega
      rw [this]
      exact ih (i + 1) j' (by simpa using hj)

theorem char_roundtrip (c : Char) (hc : c ∈ ALPHABET) (off : ℕ) :
    ALPHABET.getD ((((pyIndex ALPHABET (ALPHABET.getD
        ((pyIndex ALPHABET c + off) % ALPHABET.length) 'A') : ℤ) - (off : ℤ)) %
      (ALPHABET.length : ℤ)).toNat) 'A' = c := by
  have ha : pyIndex ALPHABET c < 26 := pyIndex_lt_alphabet c hc
  have hj : (pyIndex ALPHABET c + off) % ALPHABET.length < 26 :=
    Nat.mod_lt _ (by decide)
  rw [pyIndex_getD_alphabet _ hj]
  have htn : (((((pyIndex ALPHABET c + off) % ALPHABET.length : ℕ) : ℤ) - (off : ℤ)) %
      (ALPHABET.length : ℤ)).toNat = pyIndex ALPHABET c := by
    rw [alphabet_len]
    omega
  rw [htn]
  exact getD_pyIndex_alphabet c hc

theorem dec_enc_pure (offs : List ℕ) (rawLen : ℕ) (p : List Char) :
    ∀ i : ℕ, (∀ c ∈ p, c ∈ ALPHABET) →
      decPure offs rawLen i (encPure offs rawLen i p) = p := by
  induction p with
  | nil => intro i _; rfl
  | cons c rest ih =>
    intro i h
    rw [encPure, decPure]
    rw [char_roundtrip c (h c (List.mem_cons_self c rest))]
    rw [ih (i + 1) (fun x hx => h x (List.mem_cons_of_mem c hx))]

/-! ### Claims C1, C4, C10: the shift cipher primitives -/

/-- C1 (counterexample): the round-trip claim fails as stated.  The key
`"AB1"` has the non-empty normalized form `"AB"`, yet
`encrypt("AAA", "AB1")` raises `IndexError` — the key offset subscript uses
the raw key length 3 while only 2 offsets exist — so
`decrypt(encrypt(P, K), K)` does not evaluate to `normalize(P)`. -/
theorem roundtrip_key_counterexample :
    normalize_text ['A', 'B', '1'] ≠ [] ∧
    ¬ ∃ ct, encryptE ['A', 'A', 'A'] ['A', 'B', '1'] = Except.ok ct ∧
        decryptE ct ['A', 'B', '1'] = Except.ok (normalize_text ['A', 'A', 'A']) := by
  constructor
  · decide
  · rintro ⟨ct, hct, -⟩
    have : encryptE ['A', 'A', 'A'] ['A', 'B', '1'] = Except.error PyErr.indexError := rfl
    rw [this] at hct
    cases hct

/-- C1 (amended): for every text `P` and every non-empty key `K` consisting
entirely of ASCII letters, `decrypt(encrypt(P, K), K) = normalize(P)`. -/
theorem vigenere_roundtrip (P K : List Char) (hne : K ≠ [])
    (hK : ∀ c ∈ K, c ∈ asciiLetters) :
    ∃ ct, encryptE P K = Except.ok ct ∧ decryptE ct K = Except.ok (normalize_text P) := by
  have hlen : ((normalize_text K).map (pyIndex ALPHABET)).length = K.length := by
    rw [List.length_map, normalize_length_of_letters K hK]
  have h0 : K.length ≠ 0 := fun h => hne (List.length_eq_zero.mp h)
  refine ⟨encPure ((normalize_text K).map (pyIndex ALPHABET)) K.length 0 (normalize_text P),
    ?_, ?_⟩
  · rw [encryptE]
    exact encLoop_ok _ K.length h0 hlen _ 0
  · rw [decryptE]
    rw [normalize_eq_self _ (encPure_mem _ K.length _ 0)]
    rw [decLoop_ok _ K.length h0 hlen _ 0]
    rw [dec_enc_pure _ K.length _ 0 (normalize_mem P)]

/-- C1 (witness): the amended round-trip at a concrete text and key. -/
theorem vigenere_roundtrip_witness :
    ((['K', 'e', 'y'] : List Char) ≠ [] ∧ ∀ c ∈ ['K', 'e', 'y'], c ∈ asciiLetters) ∧
    ∃ ct, encryptE ['H', 'E', 'L', 'L', 'O'] ['K', 'e', 'y'] = Except.ok ct ∧
      decryptE ct ['K', 'e', 'y'] = Except.ok (normalize_text ['H', 'E', 'L', 'L', 'O']) :=
  ⟨⟨by decide, by decide⟩, vigenere_roundtrip _ _ (by decide) (by decide)⟩

/-- C4 (counterexample): with the empty key and the text `"A"`, both `encrypt`
and `decrypt` crash with the unguarded `ZeroDivisionError` of `i % len(key)`,
which is not an `EmptyKeyError` — no `EmptyKeyError` exists in the source. -/
theorem empty_key_counterexample :
    encryptE ['A'] [] = Except.error PyErr.zeroDivisionError ∧
    decryptE ['A'] [] = Except.error PyErr.zeroDivisionError ∧
    PyErr.zeroDivisionError ≠ PyErr.emptyKeyError := by
  refine ⟨rfl, rfl, ?_⟩
  decide

/-- C4 (amended): when the key normalizes to the empty string, `encrypt` and
`decrypt` never produce an `EmptyKeyError`: with a non-empty normalized text
they crash — `ZeroDivisionError` (modulo by the raw key length 0) when the
raw key is empty, `IndexError` (offset subscript out of range) when the raw
key is non-empty — and with an empty normalized text they return the empty
string. -/
theorem empty_key_behavior (t k : List Char) (hk : normalize_text k = []) :
    (normalize_text t ≠ [] → k = [] →
      encryptE t k = Except.error PyErr.zeroDivisionError ∧
      decryptE t k = Except.error PyErr.zeroDivisionError) ∧
    (normalize_text t ≠ [] → k ≠ [] →
      encryptE t k = Except.error PyErr.indexError ∧
      decryptE t k = Except.error PyErr.indexError) ∧
    (normalize_text t = [] →
      encryptE t k = Except.ok [] ∧ decryptE t k = Except.ok []) := by
  refine ⟨?_, ?_, ?_⟩
  · intro ht hk0
    obtain ⟨c, rest, hcr⟩ := List.exists_cons_of_ne_nil ht
    subst hk0
    rw [encryptE, decryptE, hcr]
    constructor
    · rw [encLoop, if_pos (show ([] : List Char).length = 0 from rfl)]
    · rw [decLoop, if_pos (show ([] : List Char).length = 0 from rfl)]
  · intro ht hk0
    obtain ⟨c, rest, hcr⟩ := List.exists_cons_of_ne_nil ht
    have h0 : k.length ≠ 0 := fun h => hk0 (List.length_eq_zero.mp h)
    have hoffs : (normalize_text k).map (pyIndex ALPHABET) = [] := by rw [hk]; rfl
    rw [encryptE, decryptE, hcr, hoffs]
    constructor
    · rw [encLoop, if_neg h0, dif_neg (by simp)]
    · rw [decLoop, if_neg h0, dif_neg (by simp)]
  · intro ht
    rw [encryptE, decryptE, ht]
    exact ⟨rfl, rfl⟩

/-- C4 (witness): the amended statement at the concrete text `"A"` and the
empty key. -/
theorem empty_key_behavior_witness :
    normalize_text [] = [] ∧
    (normalize_text ['A'] ≠ [] → ([] : List Char) = [] →
      encryptE ['A'] [] = Except.error PyErr.zeroDivisionError ∧
      decryptE ['A'] [] = Except.error PyErr.zeroDivisionError) ∧
    (normalize_text ['A'] ≠ [] → ([] : List Char) ≠ [] →
      encryptE ['A'] [] = Except.error PyErr.indexError ∧
      decryptE ['A'] [] = Except.error PyErr.indexError) ∧
    (normalize_text ['A'] = [] →
      encryptE ['A'] [] = Except.ok [] ∧ decryptE ['A'] [] = Except.ok []) :=
  ⟨by decide, empty_key_behavior ['A'] [] (by decide)⟩

/-- C10: for every text and every non-empty key made of ASCII letters,
`encrypt` and `decrypt` succeed, their result has the length of the
normalized text and consists of `ALPHABET` letters, and the character at
index `j` is shifted by the key offset at `j % len(key)` — the offsets cycle
with period the raw key length. -/
theorem encrypt_decrypt_safe (t k : List Char) (hne : k ≠ [])
    (hk : ∀ c ∈ k, c ∈ asciiLetters) :
    (∃ r, encryptE t k = Except.ok r ∧
      r.length = (normalize_text t).length ∧
      (∀ c ∈ r, c ∈ ALPHABET) ∧
      ∀ j, j < r.length → r.getD j 'A' =
        ALPHABET.getD ((pyIndex ALPHABET ((normalize_text t).getD j 'A') +
          ((normalize_text k).map (pyIndex ALPHABET)).getD (j % k.length) 0) %
          ALPHABET.length) 'A') ∧
    (∃ r, decryptE t k = Except.ok r ∧
      r.length = (normalize_text t).length ∧
      (∀ c ∈ r, c ∈ ALPHABET) ∧
      ∀ j, j < r.length → r.getD j 'A' =
        ALPHABET.getD ((((pyIndex ALPHABET ((normalize_text t).getD j 'A') : ℤ) -
          (((normalize_text k).map (pyIndex ALPHABET)).getD (j % k.length) 0 : ℤ)) %
          (ALPHABET.length : ℤ)).toNat) 'A') := by
  have hlen : ((normalize_text k).map (pyIndex ALPHABET)).length = k.length := by
    rw [List.length_map, normalize_length_of_letters k hk]
  have h0 : k.length ≠ 0 := fun h => hne (List.length_eq_zero.mp h)
  constructor
  · refine ⟨encPure ((normalize_text k).map (pyIndex ALPHABET)) k.length 0 (normalize_text t),
      ?_, ?_, ?_, ?_⟩
    · rw [encryptE]
      exact encLoop_ok _ k.length h0 hlen _ 0
    · exact encPure_length _ _ _ 0
    · exact encPure_mem _ _ _ 0
    · intro j hj
      rw [encPure_length] at hj
      have := encPure_getD ((normalize_text k).map (pyIndex ALPHABET)) k.length
        (normalize_text t) 0 j hj
      simpa using this
  · refine ⟨decPure ((normalize_text k).map (pyIndex ALPHABET)) k.length 0 (normalize_text t),
      ?_, ?_, ?_, ?_⟩
    · rw [decryptE]
      exact decLoop_ok _ k.length h0 hlen _ 0
    · exact decPure_length _ _ _ 0
    · exact decPure_mem _ _ _ 0
    · intro j hj
      rw [decPure_length] at hj
      have := decPure_getD ((normalize_text k).map (pyIndex ALPHABET)) k.length
        (normalize_text t) 0 j hj
      simpa using this

/-- C10 (witness): the safety statement at a concrete text and key. -/
theorem encrypt_decrypt_safe_witness :
    ((['K', 'e', 'y'] : List Char) ≠ [] ∧ ∀ c ∈ ['K', 'e', 'y'], c ∈ asciiLetters) ∧
    ((∃ r, encryptE ['H', 'i'] ['K', 'e', 'y'] = Except.ok r ∧
      r.length = (normalize_text ['H', 'i']).length ∧
      (∀ c ∈ r, c ∈ ALPHABET) ∧
      ∀ j, j < r.length → r.getD j 'A' =
        ALPHABET.getD ((pyIndex ALPHABET ((normalize_text ['H', 'i']).getD j 'A') +
          ((normalize_text ['K', 'e', 'y']).map (pyIndex ALPHABET)).getD
            (j % (['K', 'e', 'y'] : List Char).length) 0) % ALPHABET.length) 'A') ∧
    (∃ r, decryptE ['H', 'i'] ['K', 'e', 'y'] = Except.ok r ∧
      r.length = (normalize_text ['H', 'i']).length ∧
      (∀ c ∈ r, c ∈ ALPHABET) ∧
      ∀ j, j < r.length → r.getD j 'A' =
        ALPHABET.getD ((((pyIndex ALPHABET ((normalize_text ['H', 'i']).getD j 'A') : ℤ) -
          (((normalize_text ['K', 'e', 'y']).map (pyIndex ALPHABET)).getD
            (j % (['K', 'e', 'y'] : List Char).length) 0 : ℤ)) %
          (ALPHABET.length : ℤ)).toNat) 'A')) :=
  ⟨⟨by decide, by decide⟩, encrypt_decrypt_safe ['H', 'i'] ['K', 'e', 'y'] (by decide) (by decide)⟩

/-! ### Claims C2, C3, C5, C9: the cracking pipeline -/

/-- C2 (code bug): `calc_distances` iterates `for i in range(2, len(positions))`
and therefore never forms the pair `(positions[0], positions[1])`.  An ngram
with exactly two recorded positions contributes NO distance at all (the claim
requires `2·1/2 = 1`), and one with three positions contributes only the two
distances `p2 - p0` and `p2 - p1` (the claim requires `3·2/2 = 3`, including
`p1 - p0 = 5`). -/
theorem calc_distances_skips_first_pair :
    calc_distances [(['X', 'Y', 'Z'], [0, 5])] = [] ∧
    calc_distances [(['X', 'Y', 'Z'], [0, 5, 9])] = [9, 4] :=
  ⟨rfl, rfl⟩

/-- C5 (code bug): verbosity changes the outcome of `crack`.  On the
ciphertext `"AAAAAAA"` the run with verbosity 0 succeeds and returns the
plaintext `"EEEEEEE"` with key `"WW"`, while the run with verbosity 2 crashes
with `IndexError`: the diagnostic line 234 reads `most_common[1]` although
each column of the ciphertext contains a single distinct letter. -/
theorem crack_verbosity_alters_outcome :
    crackE (List.replicate 7 'A') 0 = Except.ok (List.replicate 7 'E', ['W', 'W']) ∧
    crackE (List.replicate 7 'A') 2 = Except.error PyErr.indexError :=
  ⟨rfl, rfl⟩

/-- C3 (counterexample): on the two-letter ciphertext `"AB"` the divisor table
is empty and `crack` fails with the unhandled `ValueError` of
`max(div_freqs, ...)` over an empty collection — not with an
`InsufficientSignalError`, which the source never defines. -/
theorem crack_short_counterexample :
    crackE ['A', 'B'] 0 = Except.error PyErr.valueError ∧
    PyErr.valueError ≠ PyErr.insufficientSignalError :=
  ⟨rfl, by decide⟩

/-- A fold of the ngram-recording step over lengths that are all larger than
`i + 1` records nothing. -/
theorem foldl_skip_all (cy : List Char) (i : ℕ) (ns : List ℕ) :
    ∀ m : MultMap, (∀ n ∈ ns, i + 1 < n) →
      ns.foldl (fun m n => if i + 1 < n then m
        else alistAppendPos m (pySlice cy (i + 1 - n) (i + 1)) (i + 1 - n)) m = m := by
  induction ns with
  | nil => intro m _; rfl
  | cons n rest ih =>
    intro m h
    rw [List.foldl_cons, if_pos (h n (List.mem_cons_self n rest))]
    exact ih m (fun x hx => h x (List.mem_cons_of_mem n hx))

/-- For an end index `i < 2` no ngram fits (every length is at least
`MIN_NGRAM = 3`), so the scan step records nothing. -/
theorem addNgrams_small (cy : List Char) (m : MultMap) (i : ℕ) (hi : i + 1 < 3) :
    addNgrams cy m i = m := by
  rw [addNgrams]
  refine foldl_skip_all cy i _ m ?_
  intro n hn
  have h3 : ∀ n ∈ List.range' MIN_NGRAM (MAX_NGRAM - MIN_NGRAM + 1), 3 ≤ n := by decide
  exact lt_of_lt_of_le hi (h3 n hn)

/-- Scanning a ciphertext shorter than `MIN_NGRAM` records nothing. -/
theorem foldl_addNgrams_id (cy : List Char) (is : List ℕ) :
    ∀ m : MultMap, (∀ i ∈ is, i + 1 < 3) → is.foldl (addNgrams cy) m = m := by
  induction is with
  | nil => intro m _; rfl
  | cons i rest ih =>
    intro m h
    rw [List.foldl_cons, addNgrams_small cy m i (h i (List.mem_cons_self i rest))]
    exact ih m (fun x hx => h x (List.mem_cons_of_mem i hx))

/-- A ciphertext shorter than `MIN_NGRAM = 3` has no repeated ngrams. -/
theorem find_multiples_short (cy : List Char) (h : cy.length < 3) :
    find_multiples cy = [] := by
  rw [find_multiples]
  rw [foldl_addNgrams_id cy (List.range cy.length) []
    (fun i hi => by have := List.mem_range.mp hi; omega)]
  rfl

/-- C3 (amended): whenever the divisor-frequency table is empty — in
particular for every ciphertext whose normalized form is shorter than the
minimum ngram length 3 — `crack` fails with the unhandled `ValueError` of
taking the maximum of an empty collection, not with an explicit
`InsufficientSignalError` (no such error exists in the source). -/
theorem crack_empty_table_valueError (c : List Char) (v : ℕ) :
    (divTableOf (normalize_text c) = [] → crackE c v = Except.error PyErr.valueError) ∧
    ((normalize_text c).length < 3 → crackE c v = Except.error PyErr.valueError) := by
  have h1 : divTableOf (normalize_text c) = [] →
      crackE c v = Except.error PyErr.valueError := by
    intro h
    unfold crackE
    rw [h]
    rfl
  refine ⟨h1, fun h => h1 ?_⟩
  rw [divTableOf, find_multiples_short _ h]
  rfl

/-- C3 (witness): the amended statement evaluated on the ciphertext `"AB"`. -/
theorem crack_empty_table_valueError_witness :
    (normalize_text ['A', 'B']).length < 3 ∧
    crackE ['A', 'B'] 0 = Except.error PyErr.valueError :=
  ⟨by decide, (crack_empty_table_valueError ['A', 'B'] 0).2 (by decide)⟩

/-- C9: whenever `crack` succeeds, the plaintext it returns is exactly
`decrypt` of the normalized ciphertext under the key it returns — the last
two steps of `crack` are `plain = decrypt(cypher, key); return plain, key`. -/
theorem crack_consistent (c : List Char) (v : ℕ) (p k : List Char)
    (h : crackE c v = Except.ok (p, k)) :
    decryptE (normalize_text c) k = Except.ok p := by
  unfold crackE at h
  split at h
  · simp at h
  · split at h
    · simp at h
    · split at h
      · simp at h
      · split at h
        · simp at h
        · split at h
          · simp at h
          · rename_i plain hdec
            simp only [Except.ok.injEq, Prod.mk.injEq] at h
            obtain ⟨hp, hk⟩ := h
            subst hp
            subst hk
            exact hdec

/-- C9 (witness): the consistency statement at the concrete crack of
`"AAAAAAA"`. -/
theorem crack_consistent_witness :
    crackE (List.replicate 7 'A') 0 = Except.ok (List.replicate 7 'E', ['W', 'W']) ∧
    decryptE (normalize_text (List.replicate 7 'A')) ['W', 'W'] =
      Except.ok (List.replicate 7 'E') :=
  ⟨rfl, crack_consistent (List.replicate 7 'A') 0 (List.replicate 7 'E') ['W', 'W'] rfl⟩

/-! ### Claim C8: invariants of `find_multiples` -/

theorem pySlice_isInfix (l : List Char) (a b : ℕ) : (pySlice l a b).IsInfix l :=
  ⟨l.take a, (l.drop a).drop (b - a), by
    rw [pySlice, List.append_assoc, List.take_append_drop, List.take_append_drop]⟩

theorem pySlice_length (l : List Char) (a b : ℕ) (hab : a ≤ b) (hb : b ≤ l.length) :
    (pySlice l a b).length = b - a := by
  rw [pySlice, List.length_take, List.length_drop]
  omega

theorem alistAppendPos_keys (P : List Char → Prop) (m : MultMap) (key : List Char) (pos : ℕ)
    (hm : ∀ e ∈ m, P e.1) (hkey : P key) :
    ∀ e ∈ alistAppendPos m key pos, P e.1 := by
  induction m with
  | nil =>
    intro e he
    rw [alistAppendPos] at he
    rw [List.mem_singleton.mp he]
    exact hkey
  | cons kv rest ih =>
    intro e he
    obtain ⟨k, ps⟩ := kv
    rw [alistAppendPos] at he
    by_cases hkk : k = key
    · rw [if_pos hkk] at he
      rcases List.mem_cons.mp he with rfl | htl
      · exact hm (k, ps) (List.mem_cons_self _ _)
      · exact hm e (List.mem_cons_of_mem _ htl)
    · rw [if_neg hkk] at he
      rcases List.mem_cons.mp he with rfl | htl
      · exact hm (k, ps) (List.mem_cons_self _ _)
      · exact ih (fun x hx => hm x (List.mem_cons_of_mem _ hx)) e htl

theorem addNgrams_keyProp (cy : List Char) (i : ℕ) (hi : i < cy.length) (ns : List ℕ) :
    ∀ m : MultMap,
      (∀ n ∈ ns, 3 ≤ n ∧ n ≤ 16) →
      (∀ e ∈ m, 3 ≤ e.1.length ∧ e.1.length ≤ 16 ∧ e.1.IsInfix cy) →
      ∀ e ∈ ns.foldl (fun m n => if i + 1 < n then m
          else alistAppendPos m (pySlice cy (i + 1 - n) (i + 1)) (i + 1 - n)) m,
        3 ≤ e.1.length ∧ e.1.length ≤ 16 ∧ e.1.IsInfix cy := by
  induction ns with
  | nil => intro m _ hm e he; exact hm e he
  | cons n rest ih =>
    intro m hns hm e he
    rw [List.foldl_cons] at he
    refine ih _ (fun x hx => hns x (List.mem_cons_of_mem n hx)) ?_ e he
    by_cases hcond : i + 1 < n
    · rw [if_pos hcond]
      exact hm
    · rw [if_neg hcond]
      obtain ⟨hn3, hn16⟩ := hns n (List.mem_cons_self n rest)
      have hlen : (pySlice cy (i + 1 - n) (i + 1)).length = n := by
        rw [pySlice_length cy _ _ (by omega) (by omega)]
        omega
      exact alistAppendPos_keys
        (fun key => 3 ≤ key.length ∧ key.length ≤ 16 ∧ key.IsInfix cy) m _ _ hm
        ⟨by omega, by omega, pySlice_isInfix cy _ _⟩

theorem foldl_addNgrams_keyProp (cy : List Char) (is : List ℕ) :
    ∀ m : MultMap, (∀ i ∈ is, i < cy.length) →
      (∀ e ∈ m, 3 ≤ e.1.length ∧ e.1.length ≤ 16 ∧ e.1.IsInfix cy) →
      ∀ e ∈ is.foldl (addNgrams cy) m,
        3 ≤ e.1.length ∧ e.1.length ≤ 16 ∧ e.1.IsInfix cy := by
  induction is with
  | nil => intro m _ hm; exact hm
  | cons i rest ih =>
    intro m his hm
    rw [List.foldl_cons]
    refine ih _ (fun x hx => his x (List.mem_cons_of_mem i hx)) ?_
    rw [addNgrams]
    have hrange : ∀ n ∈ List.range' MIN_NGRAM (MAX_NGRAM - MIN_NGRAM + 1),
        3 ≤ n ∧ n ≤ 16 := by decide
    exact addNgrams_keyProp cy i (his i (List.mem_cons_self i rest)) _ m hrange hm

/-- C8: every entry returned by `find_multiples` has at least 2 recorded
positions, and its key is a substring of the ciphertext of length between
`MIN_NGRAM = 3` and `MAX_NGRAM = 16`. -/
theorem find_multiples_invariants (cy : List Char) :
    ∀ e ∈ find_multiples cy,
      2 ≤ e.2.length ∧ 3 ≤ e.1.length ∧ e.1.length ≤ 16 ∧ e.1.IsInfix cy := by
  intro e he
  rw [find_multiples] at he
  have hf := List.mem_filter.mp he
  have h2 : 1 < e.2.length := of_decide_eq_true hf.2
  have hkeys := foldl_addNgrams_keyProp cy (List.range cy.length) []
    (fun i hi => List.mem_range.mp hi) (fun x hx => absurd hx (List.not_mem_nil x))
    e hf.1
  exact ⟨h2, hkeys⟩

/-- C8 (witness): the invariants at a concrete entry of a concrete scan. -/
theorem find_multiples_invariants_witness :
    (['A', 'A', 'A'], ([0, 1, 2, 3, 4] : List ℕ)) ∈ find_multiples (List.replicate 7 'A') ∧
    (2 ≤ ([0, 1, 2, 3, 4] : List ℕ).length ∧ 3 ≤ (['A', 'A', 'A'] : List Char).length ∧
      (['A', 'A', 'A'] : List Char).length ≤ 16 ∧
      (['A', 'A', 'A'] : List Char).IsInfix (List.replicate 7 'A')) :=
  ⟨by decide, find_multiples_invariants (List.replicate 7 'A')
    (['A', 'A', 'A'], [0, 1, 2, 3, 4]) (by decide)⟩

/-! ### Claim C7: divisors produced by `find_common_divisors` -/

theorem stripF_spec (fuel : ℕ) : ∀ n d : ℕ, 2 ≤ d → 0 < n → n ≤ fuel →
    d ^ (stripF fuel n d).1 * (stripF fuel n d).2 = n ∧
    0 < (stripF fuel n d).2 ∧ (stripF fuel n d).2 ≤ n := by
  induction fuel with
  | zero => intro n d _ hn hfuel; omega
  | succ fuel ih =>
    intro n d hd hn hfuel
    rw [stripF]
    by_cases hg : 2 ≤ d ∧ 0 < n ∧ n % d = 0
    · rw [if_pos hg]
      have hdvd : d ∣ n := Nat.dvd_of_mod_eq_zero hg.2.2
      have hnd_pos : 0 < n / d := Nat.div_pos (Nat.le_of_dvd hn hdvd) (by omega)
      have hnd_lt : n / d < n := Nat.div_lt_self hn (by omega)
      obtain ⟨h1, h2, h3⟩ := ih (n / d) d hd hnd_pos (by omega)
      refine ⟨?_, h2, by omega⟩
      rw [pow_succ]
      calc d ^ (stripF fuel (n / d) d).1 * d * (stripF fuel (n / d) d).2
          = d * (d ^ (stripF fuel (n / d) d).1 * (stripF fuel (n / d) d).2) := by ring
        _ = d * (n / d) := by rw [h1]
        _ = n := Nat.mul_div_cancel' hdvd
    · rw [if_neg hg]
      exact ⟨by rw [pow_zero, one_mul], hn, le_refl n⟩

theorem pfLoopF_spec (fuel : ℕ) : ∀ n d : ℕ, 2 ≤ d → 1 ≤ n →
    (d = 2 ∨ d * d ≤ n) → n - d + 1 ≤ fuel →
    (pfLoopF fuel n d).prod = n ∧ ∀ x ∈ pfLoopF fuel n d, 2 ≤ x := by
  induction fuel with
  | zero =>
    intro n d hd hn hreach hfuel
    have hn1 : n = 1 := by
      rcases hreach with rfl | hsq
      · omega
      · exfalso; omega
    rw [pfLoopF, hn1]
    exact ⟨rfl, fun x hx => absurd hx (List.not_mem_nil x)⟩
  | succ fuel ih =>
    intro n d hd hn hreach hfuel
    rw [pfLoopF]
    by_cases hn1 : n ≤ 1
    · rw [if_pos hn1]
      have : n = 1 := by omega
      rw [this]
      exact ⟨rfl, fun x hx => absurd hx (List.not_mem_nil x)⟩
    · rw [if_neg hn1]
      obtain ⟨hsplit, hpos, hle⟩ := stripF_spec n n d hd (by omega) (le_refl n)
      by_cases hbr : (stripF n n d).2 < (d + 1) * (d + 1)
      · rw [if_pos hbr]
        rw [List.prod_append, List.prod_replicate]
        by_cases h1 : 1 < (stripF n n d).2
        · rw [if_pos h1]
          refine ⟨?_, ?_⟩
          · rw [List.prod_singleton]
            exact hsplit
          · intro x hx
            rcases List.mem_append.mp hx with hx | hx
            · have := List.eq_of_mem_replicate hx
              omega
            · have := List.mem_singleton.mp hx
              omega
        · rw [if_neg h1]
          have hone : (stripF n n d).2 = 1 := by omega
          refine ⟨?_, ?_⟩
          · rw [List.prod_nil, Nat.mul_one]
            rw [hone, Nat.mul_one] at hsplit
            exact hsplit
          · intro x hx
            rcases List.mem_append.mp hx with hx | hx
            · have := List.eq_of_mem_replicate hx
              omega
            · exact absurd hx (List.not_mem_nil x)
      · rw [if_neg hbr]
        have hd1 : (d + 1) * (d + 1) ≤ (stripF n n d).2 := le_of_not_lt hbr
        have hdle : d + 1 ≤ (stripF n n d).2 :=
          le_trans (Nat.le_mul_of_pos_left (d + 1) (by omega)) hd1
        have hfuel2 : (stripF n n d).2 - (d + 1) + 1 ≤ fuel := by
          clear hsplit hd1
          omega
        have hrec := ih (stripF n n d).2 (d + 1) (by omega) (by omega)
          (Or.inr hd1) hfuel2
        rw [List.prod_append, List.prod_replicate, hrec.1]
        refine ⟨hsplit, ?_⟩
        intro x hx
        rcases List.mem_append.mp hx with hx | hx
        · have := List.eq_of_mem_replicate hx
          omega
        · have := hrec.2 x hx
          omega

/-- The factor list of `prime_factors n` multiplies back to `n`, and each
factor is at least 2. -/
theorem prime_factors_spec (n : ℕ) (hn : 1 ≤ n) :
    (prime_factors n).prod = n ∧ ∀ x ∈ prime_factors n, 2 ≤ x := by
  rw [prime_factors]
  exact pfLoopF_spec n n 2 (by omega) hn (Or.inl rfl) (by omega)

theorem insertSorted_perm (x : ℕ) (l : List ℕ) : (insertSorted x l).Perm (x :: l) := by
  induction l with
  | nil => exact List.Perm.refl _
  | cons y rest ih =>
    rw [insertSorted]
    by_cases h : x ≤ y
    · rw [if_pos h]
    · rw [if_neg h]
      exact List.Perm.trans (List.Perm.cons y ih) (List.Perm.swap x y rest)

theorem pySorted_perm (l : List ℕ) : (pySorted l).Perm l := by
  induction l with
  | nil => exact List.Perm.refl _
  | cons x rest ih =>
    rw [pySorted, List.foldr_cons]
    exact List.Perm.trans (insertSorted_perm x _) (List.Perm.cons x ih)

/-- A strict sub-multiset of a list of factors all at least 2 has a product at
most half the full product. -/
theorem sublist_prod_le {s d : List ℕ} (hs : s.Sublist d) :
    (∀ x ∈ d, 2 ≤ x) → s.length < d.length → 2 * s.prod ≤ d.prod := by
  induction hs with
  | slnil => intro _ hlen; simp at hlen
  | cons a hsub ih =>
    rename_i l₁ l₂
    intro hd hlen
    have ha : 2 ≤ a := hd a (List.mem_cons_self a l₂)
    have hd' : ∀ x ∈ l₂, 2 ≤ x := fun x hx => hd x (List.mem_cons_of_mem a hx)
    rw [List.prod_cons]
    by_cases hl : l₁.length < l₂.length
    · have := ih hd' hl
      have hpos : 0 < l₂.prod := List.prod_pos (fun x hx => by have := hd' x hx; omega)
      nlinarith
    · have hle : l₂.length ≤ l₁.length := le_of_not_lt hl
      have heq : l₁ = l₂ := hsub.eq_of_length (le_antisymm hsub.length_le hle)
      subst heq
      nlinarith [List.prod_pos (show ∀ x ∈ l₁, 0 < x from fun x hx => by have := hd' x hx; omega)]
  | cons₂ a hsub ih =>
    rename_i l₁ l₂
    intro hd hlen
    have ha : 2 ≤ a := hd a (List.mem_cons_self a l₂)
    have hd' : ∀ x ∈ l₂, 2 ≤ x := fun x hx => hd x (List.mem_cons_of_mem a hx)
    have hlen' : l₁.length < l₂.length := by
      rw [List.length_cons, List.length_cons] at hlen
      omega
    have := ih hd' hlen'
    rw [List.prod_cons, List.prod_cons]
    nlinarith

/-- No distance occurs among its own divisor products: the products come from
proper non-empty sub-multisets of the prime factorization, and are therefore
at most half the distance. -/
theorem self_not_mem_products (n : ℕ) (hn : 1 < n) :
    n ∉ distanceDivisorProducts n := by
  intro hmem
  rw [distanceDivisorProducts] at hmem
  obtain ⟨s, hs, hprod⟩ := List.mem_map.mp hmem
  rw [List.mem_dedup] at hs
  have hs' := List.mem_filter.mp hs
  have hsub : s.Sublist (pySorted (prime_factors n)) := List.mem_sublists.mp hs'.1
  have hcond := hs'.2
  simp only [Bool.and_eq_true, decide_eq_true_eq] at hcond
  have hperm := pySorted_perm (prime_factors n)
  obtain ⟨hprodn, hge2⟩ := prime_factors_spec n (by omega)
  have hprodsorted : (pySorted (prime_factors n)).prod = n := by
    rw [hperm.prod_eq, hprodn]
  have hge2' : ∀ x ∈ pySorted (prime_factors n), 2 ≤ x :=
    fun x hx => hge2 x (hperm.mem_iff.mp hx)
  have hb := sublist_prod_le hsub hge2' hcond.2
  rw [hprodsorted, hprod] at hb
  omega

theorem bumpFreq_key_mem (m : List (ℕ × ℕ)) (p : ℕ) :
    ∀ e ∈ bumpFreq m p, e.1 = p ∨ ∃ e' ∈ m, e.1 = e'.1 := by
  induction m with
  | nil =>
    intro e he
    rw [bumpFreq] at he
    rw [List.mem_singleton.mp he]
    exact Or.inl rfl
  | cons kv rest ih =>
    intro e he
    obtain ⟨k, f⟩ := kv
    rw [bumpFreq] at he
    by_cases hk : k = p
    · rw [if_pos hk] at he
      rcases List.mem_cons.mp he with rfl | htl
      · exact Or.inr ⟨(k, f), List.mem_cons_self _ _, rfl⟩
      · exact Or.inr ⟨e, List.mem_cons_of_mem _ htl, rfl⟩
    · rw [if_neg hk] at he
      rcases List.mem_cons.mp he with rfl | htl
      · exact Or.inr ⟨(k, f), List.mem_cons_self _ _, rfl⟩
      · rcases ih e htl with h | ⟨e', he', heq⟩
        · exact Or.inl h
        · exact Or.inr ⟨e', List.mem_cons_of_mem _ he', heq⟩

theorem foldl_bumpFreq_key_mem (ps : List ℕ) :
    ∀ (acc : List (ℕ × ℕ)), ∀ e ∈ ps.foldl bumpFreq acc,
      (∃ e' ∈ acc, e.1 = e'.1) ∨ e.1 ∈ ps := by
  induction ps with
  | nil => intro acc e he; exact Or.inl ⟨e, he, rfl⟩
  | cons q rest ih =>
    intro acc e he
    rw [List.foldl_cons] at he
    rcases ih _ e he with ⟨e', he', heq⟩ | h
    · rcases bumpFreq_key_mem acc q e' he' with h' | ⟨e'', he'', heq'⟩
      · exact Or.inr (heq ▸ h' ▸ List.mem_cons_self q rest)
      · exact Or.inl ⟨e'', he'', heq.trans heq'⟩
    · exact Or.inr (List.mem_cons_of_mem q h)

theorem find_common_divisors_keys (ds : List ℕ) :
    ∀ (acc : List (ℕ × ℕ)),
      ∀ e ∈ ds.foldl (fun acc dist => (distanceDivisorProducts dist).foldl bumpFreq acc) acc,
        (∃ e' ∈ acc, e.1 = e'.1) ∨ ∃ d ∈ ds, e.1 ∈ distanceDivisorProducts d := by
  induction ds with
  | nil => intro acc e he; exact Or.inl ⟨e, he, rfl⟩
  | cons q rest ih =>
    intro acc e he
    rw [List.foldl_cons] at he
    rcases ih _ e he with ⟨e', he', heq⟩ | ⟨d, hd, hmem⟩
    · rcases foldl_bumpFreq_key_mem (distanceDivisorProducts q) acc e' he' with
        ⟨e'', he'', heq'⟩ | h
      · exact Or.inl ⟨e'', he'', heq.trans heq'⟩
      · exact Or.inr ⟨q, List.mem_cons_self q rest, heq ▸ h⟩
    · exact Or.inr ⟨d, List.mem_cons_of_mem q hd, hmem⟩

/-- C7: every divisor recorded by `find_common_divisors` arises from the
divisor products of some distance of the input, and no distance ever appears
among its own divisor products — a recorded divisor never equals the distance
whose factorization it came from. -/
theorem no_self_divisor (ds : List ℕ) (hds : ∀ x ∈ ds, 1 < x) :
    (∀ e ∈ find_common_divisors ds, ∃ d ∈ ds, e.1 ∈ distanceDivisorProducts d) ∧
    ∀ d ∈ ds, d ∉ distanceDivisorProducts d := by
  constructor
  · intro e he
    rw [find_common_divisors] at he
    rcases find_common_divisors_keys ds [] e he with ⟨e', he', -⟩ | h
    · exact absurd he' (List.not_mem_nil e')
    · exact h
  · intro d hd
    exact self_not_mem_products d (hds d hd)

/-- C7 (witness): the statement at the concrete distance list `[12]`. -/
theorem no_self_divisor_witness :
    (∀ x ∈ ([12] : List ℕ), 1 < x) ∧
    ((∀ e ∈ find_common_divisors [12], ∃ d ∈ ([12] : List ℕ),
        e.1 ∈ distanceDivisorProducts d) ∧
      ∀ d ∈ ([12] : List ℕ), d ∉ distanceDivisorProducts d) :=
  ⟨by decide, no_self_divisor [12] (by decide)⟩

/-! ### Claim C6: score-based and frequency-based divisor selection agree -/

theorem scoreR_reduces (f : ℕ) (hf : 1 ≤ f) :
    scoreR f = 500 * Real.log (0.1 * (f : ℝ) + 0.8) := by
  have hf0 : (f : ℝ) ≠ 0 := by
    have : (1 : ℝ) ≤ (f : ℝ) := by exact_mod_cast hf
    linarith
  rw [scoreR]
  field_simp
  ring

theorem scoreR_lt_iff (a b : ℕ) (ha : 1 ≤ a) (hb : 1 ≤ b) :
    scoreR a < scoreR b ↔ a < b := by
  rw [scoreR_reduces a ha, scoreR_reduces b hb]
  have h1 : (0 : ℝ) < 0.1 * (a : ℝ) + 0.8 := by positivity
  have h2 : (0 : ℝ) < 0.1 * (b : ℝ) + 0.8 := by positivity
  constructor
  · intro h
    by_contra hab
    push_neg at hab
    have hba : (b : ℝ) ≤ (a : ℝ) := by exact_mod_cast hab
    have hle : 0.1 * (b : ℝ) + 0.8 ≤ 0.1 * (a : ℝ) + 0.8 := by linarith
    have := Real.log_le_log h2 hle
    linarith
  · intro h
    have hab : (a : ℝ) < (b : ℝ) := by exact_mod_cast h
    have hlt : 0.1 * (a : ℝ) + 0.8 < 0.1 * (b : ℝ) + 0.8 := by linarith
    have := Real.log_lt_log h1 hlt
    linarith

/-- The fold step of Python `max` with the score as key (proof helper). -/
noncomputable def maxStepScore (acc : Option (ℕ × ℕ)) (e : ℕ × ℕ) : Option (ℕ × ℕ) :=
  match acc with
  | none => some e
  | some a => if scoreR a.2 < scoreR e.2 then some e else some a

/-- The fold step of Python `max` with the raw frequency as key. -/
def maxStepFreq (acc : Option (ℕ × ℕ)) (e : ℕ × ℕ) : Option (ℕ × ℕ) :=
  match acc with
  | none => some e
  | some a => if a.2 < e.2 then some e else some a

theorem maxStepScore_some (a e : ℕ × ℕ) :
    maxStepScore (some a) e = if scoreR a.2 < scoreR e.2 then some e else some a := rfl

theorem maxStepFreq_some (a e : ℕ × ℕ) :
    maxStepFreq (some a) e = if a.2 < e.2 then some e else some a := rfl

theorem maxStepFreq_pos (acc : Option (ℕ × ℕ)) (e : ℕ × ℕ) (he : 1 ≤ e.2)
    (hacc : ∀ a, acc = some a → 1 ≤ a.2) :
    ∀ a, maxStepFreq acc e = some a → 1 ≤ a.2 := by
  intro a ha
  cases acc with
  | none =>
    have : e = a := by simpa [maxStepFreq] using ha
    rw [← this]
    exact he
  | some a0 =>
    have ha0 : 1 ≤ a0.2 := hacc a0 rfl
    rw [maxStepFreq_some] at ha
    by_cases hc : a0.2 < e.2
    · rw [if_pos hc] at ha
      have : e = a := by simpa using ha
      rw [← this]
      exact he
    · rw [if_neg hc] at ha
      have : a0 = a := by simpa using ha
      rw [← this]
      exact ha0

theorem foldl_max_key_eq (l : List (ℕ × ℕ)) :
    ∀ acc : Option (ℕ × ℕ), (∀ e ∈ l, 1 ≤ e.2) →
      (∀ a, acc = some a → 1 ≤ a.2) →
      l.foldl maxStepScore acc = l.foldl maxStepFreq acc := by
  induction l with
  | nil => intro acc _ _; rfl
  | cons e rest ih =>
    intro acc hl hacc
    rw [List.foldl_cons, List.foldl_cons]
    have he : 1 ≤ e.2 := hl e (List.mem_cons_self e rest)
    have hstep : maxStepScore acc e = maxStepFreq acc e := by
      cases acc with
      | none => rfl
      | some a =>
        have ha : 1 ≤ a.2 := hacc a rfl
        rw [maxStepScore_some, maxStepFreq_some]
        exact if_congr (scoreR_lt_iff a.2 e.2 ha he) rfl rfl
    rw [hstep]
    exact ih _ (fun x hx => hl x (List.mem_cons_of_mem e hx)) (maxStepFreq_pos acc e he hacc)

theorem foldl_max_stays_some (l : List (ℕ × ℕ)) :
    ∀ a : ℕ × ℕ, (l.foldl maxStepFreq (some a)).isSome = true := by
  induction l with
  | nil => intro a; rfl
  | cons e rest ih =>
    intro a
    rw [List.foldl_cons, maxStepFreq_some]
    by_cases hc : a.2 < e.2
    · rw [if_pos hc]
      exact ih e
    · rw [if_neg hc]
      exact ih a

theorem bumpFreq_pos (m : List (ℕ × ℕ)) (p : ℕ) (hm : ∀ e ∈ m, 1 ≤ e.2) :
    ∀ e ∈ bumpFreq m p, 1 ≤ e.2 := by
  induction m with
  | nil =>
    intro e he
    rw [bumpFreq] at he
    rw [List.mem_singleton.mp he]
  | cons kv rest ih =>
    intro e he
    obtain ⟨k, f⟩ := kv
    rw [bumpFreq] at he
    by_cases hk : k = p
    · rw [if_pos hk] at he
      rcases List.mem_cons.mp he with rfl | htl
      · have := hm (k, f) (List.mem_cons_self _ _)
        omega
      · exact hm e (List.mem_cons_of_mem _ htl)
    · rw [if_neg hk] at he
      rcases List.mem_cons.mp he with rfl | htl
      · exact hm (k, f) (List.mem_cons_self _ _)
      · exact ih (fun x hx => hm x (List.mem_cons_of_mem _ hx)) e htl

theorem foldl_bumpFreq_pos (ps : List ℕ) :
    ∀ acc : List (ℕ × ℕ), (∀ e ∈ acc, 1 ≤ e.2) →
      ∀ e ∈ ps.foldl bumpFreq acc, 1 ≤ e.2 := by
  induction ps with
  | nil => intro acc hacc; exact hacc
  | cons q rest ih =>
    intro acc hacc
    rw [List.foldl_cons]
    exact ih _ (bumpFreq_pos acc q hacc)

theorem foldl_dist_pos (ds : List ℕ) :
    ∀ acc : List (ℕ × ℕ), (∀ e ∈ acc, 1 ≤ e.2) →
      ∀ e ∈ ds.foldl (fun acc dist => (distanceDivisorProducts dist).foldl bumpFreq acc) acc,
        1 ≤ e.2 := by
  induction ds with
  | nil => intro acc hacc; exact hacc
  | cons q rest ih =>
    intro acc hacc
    rw [List.foldl_cons]
    exact ih _ (foldl_bumpFreq_pos _ acc hacc)

theorem find_common_divisors_pos (ds : List ℕ) :
    ∀ e ∈ find_common_divisors ds, 1 ≤ e.2 := by
  rw [find_common_divisors]
  exact foldl_dist_pos ds [] (fun e he => absurd he (List.not_mem_nil e))

/-- C6: the score of lines 195-196 reduces for every frequency `f ≥ 1` to
`500 * ln(0.1 f + 0.8)`, a strictly increasing function of the frequency
alone; consequently, on every non-empty divisor table the divisor selected by
maximizing the score equals the divisor selected by maximizing the raw
frequency (same first-encountered tie-break), and the selection succeeds. -/
theorem divisor_score_selection (ds : List ℕ) (hne : find_common_divisors ds ≠ []) :
    (∀ f : ℕ, 1 ≤ f → scoreR f = 500 * Real.log (0.1 * (f : ℝ) + 0.8)) ∧
    pyMaxBy scoreR (find_common_divisors ds) =
      pyMaxBy (fun f => f) (find_common_divisors ds) ∧
    (pyMaxBy (fun f => f) (find_common_divisors ds)).isSome = true := by
  refine ⟨scoreR_reduces, ?_, ?_⟩
  · show (((find_common_divisors ds).foldl maxStepScore none).map Prod.fst) =
      (((find_common_divisors ds).foldl maxStepFreq none).map Prod.fst)
    exact congrArg (Option.map Prod.fst)
      (foldl_max_key_eq (find_common_divisors ds) none (find_common_divisors_pos ds)
        (fun a ha => by cases ha))
  · obtain ⟨e, rest, hcr⟩ := List.exists_cons_of_ne_nil hne
    show (((find_common_divisors ds).foldl maxStepFreq none).map Prod.fst).isSome = true
    rw [hcr, List.foldl_cons]
    obtain ⟨x, hx⟩ := Option.isSome_iff_exists.mp (foldl_max_stays_some rest e)
    show ((rest.foldl maxStepFreq (some e)).map Prod.fst).isSome = true
    rw [hx]
    rfl

/-- C6 (witness): the selection equivalence on the concrete distance list
`[4]`, whose divisor table is the single entry `(2, 1)`. -/
theorem divisor_score_selection_witness :
    find_common_divisors [4] ≠ [] ∧
    ((∀ f : ℕ, 1 ≤ f → scoreR f = 500 * Real.log (0.1 * (f : ℝ) + 0.8)) ∧
      pyMaxBy scoreR (find_common_divisors [4]) =
        pyMaxBy (fun f => f) (find_common_divisors [4]) ∧
      (pyMaxBy (fun f => f) (find_common_divisors [4])).isSome = true) :=
  ⟨by decide, divisor_score_selection [4] (by decide)⟩
